import Mathlib

set_option autoImplicit false

/-!
Shallow embedding of the TaskFlow repository core (models.py, executor.py,
scheduler.py, pubsub.py, services/block_services.py) and proofs about it.

Conventions: timestamps are natural numbers (seconds); database tables are
lists of rows, and the table returned by an operation is the state after the
session commit (database.session_scope commits on normal exit, rolls back on
an exception).
-/

namespace TaskFlow

/-! ## TaskLock (src/models.py, class TaskLock) -/

structure LockRow where
  task_id : Nat
  worker_id : String
  locked_at : Nat
  expires_at : Nat
deriving Repr, DecidableEq

abbrev LockTable := List LockRow

/-- Embeds the cleanup query at the start of TaskLock.acquire_lock:
delete every row whose expires_at is strictly before the current time. -/
def cleanupExpired (now : Nat) (tbl : LockTable) : LockTable :=
  tbl.filter (fun r => !decide (r.expires_at < now))

/-- Embeds TaskLock.acquire_lock(task_id, worker_id, lock_duration=60).
The lock table together with the current time stands for the database
session.  The call first deletes all expired rows, then returns False if a
row for the task remains, otherwise inserts a fresh row expiring
lock_duration seconds from now and returns True.  The returned table is the
committed state (session_scope commits in both branches). -/
def acquire_lock (tbl : LockTable) (now : Nat) (task_id : Nat) (worker_id : String)
    (lock_duration : Nat) : LockTable × Bool :=
  let cleaned := cleanupExpired now tbl
  match cleaned.find? (fun r => r.task_id == task_id) with
  | some _ => (cleaned, false)
  | none => (cleaned ++ [⟨task_id, worker_id, now, now + lock_duration⟩], true)

/-- Embeds TaskLock.release_lock(task_id, worker_id): deletes exactly the
rows that belong to this task and are owned by this worker. -/
def release_lock (tbl : LockTable) (task_id : Nat) (worker_id : String) : LockTable :=
  tbl.filter (fun r => !(r.task_id == task_id && r.worker_id == worker_id))

theorem mem_cleanupExpired {now : Nat} {tbl : LockTable} {r : LockRow} :
    r ∈ cleanupExpired now tbl ↔ r ∈ tbl ∧ now ≤ r.expires_at := by
  simp [cleanupExpired, List.mem_filter, Nat.not_lt]

theorem acquire_true_of_no_live_row (tbl : LockTable) (now tid : Nat) (w : String)
    (dur : Nat) (h : ∀ r ∈ tbl, r.task_id = tid → r.expires_at < now) :
    acquire_lock tbl now tid w dur =
      (cleanupExpired now tbl ++ [⟨tid, w, now, now + dur⟩], true) := by
  have hfind : (cleanupExpired now tbl).find? (fun r => r.task_id == tid) = none := by
    rw [List.find?_eq_none]
    intro r hr
    rcases mem_cleanupExpired.mp hr with ⟨hmem, hexp⟩
    simp only [beq_iff_eq]
    intro htid
    exact absurd (h r hmem htid) (Nat.not_lt.mpr hexp)
  simp [acquire_lock, hfind]

theorem acquire_false_of_live_row (tbl : LockTable) (now tid : Nat) (w : String)
    (dur : Nat) (r0 : LockRow) (hr0 : r0 ∈ tbl) (htid : r0.task_id = tid)
    (hlive : now ≤ r0.expires_at) :
    acquire_lock tbl now tid w dur = (cleanupExpired now tbl, false) := by
  have hmem : r0 ∈ cleanupExpired now tbl := mem_cleanupExpired.mpr ⟨hr0, hlive⟩
  have hfind : ((cleanupExpired now tbl).find? (fun r => r.task_id == tid)).isSome := by
    rw [List.find?_isSome]
    exact ⟨r0, hmem, by simp [htid]⟩
  rcases Option.isSome_iff_exists.mp hfind with ⟨x, hx⟩
  simp [acquire_lock, hx]

/-- C1: for every task_id, acquire_lock(task_id, "w1") followed by
acquire_lock(task_id, "w2") before any release returns True then False, and
after release_lock(task_id, "w1") a further acquire_lock(task_id, "w2")
returns True.  The timed model makes the claim's implicit setting explicit:
no live lock for the task exists before the first call, and the second call
happens while the first lock is still unexpired. -/
theorem acquire_acquire_release_acquire (tbl : LockTable) (tid t1 t2 t3 : Nat)
    (hclear : ∀ r ∈ tbl, r.task_id = tid → r.expires_at < t1)
    (h12 : t1 ≤ t2) (hlive : t2 < t1 + 60) (h23 : t2 ≤ t3) :
    (acquire_lock tbl t1 tid "w1" 60).2 = true ∧
    (acquire_lock (acquire_lock tbl t1 tid "w1" 60).1 t2 tid "w2" 60).2 = false ∧
    (acquire_lock
      (release_lock (acquire_lock (acquire_lock tbl t1 tid "w1" 60).1 t2 tid "w2" 60).1
        tid "w1")
      t3 tid "w2" 60).2 = true := by
  have hstep1 := acquire_true_of_no_live_row tbl t1 tid "w1" 60 hclear
  have htbl1 : (acquire_lock tbl t1 tid "w1" 60).1 =
      cleanupExpired t1 tbl ++ [⟨tid, "w1", t1, t1 + 60⟩] := by rw [hstep1]
  have hnewmem : (⟨tid, "w1", t1, t1 + 60⟩ : LockRow) ∈ (acquire_lock tbl t1 tid "w1" 60).1 := by
    rw [htbl1]
    exact List.mem_append_right _ (List.mem_singleton.mpr rfl)
  have hstep2 := acquire_false_of_live_row (acquire_lock tbl t1 tid "w1" 60).1 t2 tid "w2" 60
    ⟨tid, "w1", t1, t1 + 60⟩ hnewmem rfl (Nat.le_of_lt hlive)
  refine ⟨by rw [hstep1], by rw [hstep2], ?_⟩
  -- after the release by "w1" no row for the task is left
  have hnotid : ∀ r ∈ release_lock
      (acquire_lock (acquire_lock tbl t1 tid "w1" 60).1 t2 tid "w2" 60).1 tid "w1",
      r.task_id ≠ tid := by
    intro r hr
    rw [hstep2] at hr
    rcases List.mem_filter.mp hr with ⟨hrmem, hpred⟩
    intro htid
    have hworker : r.worker_id ≠ "w1" := by
      intro hw
      simp [htid, hw] at hpred
    rcases mem_cleanupExpired.mp hrmem with ⟨hmem1, _⟩
    rw [htbl1] at hmem1
    rcases List.mem_append.mp hmem1 with hmem2 | hmem2
    · rcases mem_cleanupExpired.mp hmem2 with ⟨hmem3, hexp3⟩
      exact absurd (hclear r hmem3 htid) (Nat.not_lt.mpr hexp3)
    · rw [List.mem_singleton.mp hmem2] at hworker
      exact hworker rfl
  have hfinal := acquire_true_of_no_live_row
    (release_lock (acquire_lock (acquire_lock tbl t1 tid "w1" 60).1 t2 tid "w2" 60).1
      tid "w1") t3 tid "w2" 60
    (fun r hr htid => absurd htid (hnotid r hr))
  rw [hfinal]

/-- Witness for C1 at a concrete input. -/
theorem acquire_acquire_release_acquire_witness :
    (acquire_lock [] 0 1 "w1" 60).2 = true ∧
    (acquire_lock (acquire_lock [] 0 1 "w1" 60).1 0 1 "w2" 60).2 = false ∧
    (acquire_lock
      (release_lock (acquire_lock (acquire_lock [] 0 1 "w1" 60).1 0 1 "w2" 60).1 1 "w1")
      0 1 "w2" 60).2 = true :=
  acquire_acquire_release_acquire [] 1 0 0 0 (by simp) (by decide) (by decide) (by decide)

/-- C6: an expired lock row is reclaimable: if the row for a task has expired
(and, task_id being the primary key, it is the only row for that task), a new
acquire_lock by any worker deletes the expired row and returns True. -/
theorem acquire_reclaims_expired (tbl : LockTable) (tid now : Nat) (w : String)
    (r0 : LockRow) (hr0 : r0 ∈ tbl) (hr0tid : r0.task_id = tid)
    (hr0exp : r0.expires_at < now)
    (hall : ∀ r ∈ tbl, r.task_id = tid → r.expires_at < now) :
    (acquire_lock tbl now tid w 60).2 = true ∧ r0 ∉ (acquire_lock tbl now tid w 60).1 := by
  have hstep := acquire_true_of_no_live_row tbl now tid w 60 hall
  refine ⟨by rw [hstep], ?_⟩
  rw [hstep]
  intro hmem
  rcases List.mem_append.mp hmem with hmem1 | hmem1
  · rcases mem_cleanupExpired.mp hmem1 with ⟨_, hexp⟩
    exact absurd hr0exp (Nat.not_lt.mpr hexp)
  · have : r0.expires_at = now + 60 := by rw [List.mem_singleton.mp hmem1]
    omega

/-- Witness for C6 at a concrete input. -/
theorem acquire_reclaims_expired_witness :
    (acquire_lock [⟨1, "dead", 0, 5⟩] 10 1 "w2" 60).2 = true ∧
    (⟨1, "dead", 0, 5⟩ : LockRow) ∉ (acquire_lock [⟨1, "dead", 0, 5⟩] 10 1 "w2" 60).1 :=
  acquire_reclaims_expired [⟨1, "dead", 0, 5⟩] 1 10 "w2" ⟨1, "dead", 0, 5⟩
    (by decide) (by decide) (by decide) (by decide)

/-- C7: release_lock by a worker that does not hold the task's lock is a
no-op: when every row for the task is owned by w1 and w1 differs from w2,
release_lock(task_id, w2) leaves the lock table exactly as it was. -/
theorem release_foreign_lock_noop (tbl : LockTable) (tid : Nat) (w1 w2 : String)
    (hne : w1 ≠ w2) (hown : ∀ r ∈ tbl, r.task_id = tid → r.worker_id = w1) :
    release_lock tbl tid w2 = tbl := by
  rw [release_lock, List.filter_eq_self]
  intro r hr
  by_cases htid : r.task_id = tid
  · have hw := hown r hr htid
    simp [htid, hw, hne]
  · simp [htid]

/-- Witness for C7 at a concrete input. -/
theorem release_foreign_lock_noop_witness :
    release_lock [⟨1, "w1", 0, 100⟩] 1 "w2" = [⟨1, "w1", 0, 100⟩] :=
  release_foreign_lock_noop [⟨1, "w1", 0, 100⟩] 1 "w1" "w2" (by decide) (by decide)

/-! ## Task.update_status (src/models.py, class Task) -/

structure TaskState where
  status : String
  version : Nat
deriving Repr, DecidableEq

/-- Embeds one body of the retry loop in Task.update_status: merge the task,
read current_version, set the status, bump the version, flush.  The conflict
flag models the flush-time verification (task.version != current_version + 1)
detecting that another transaction modified the row, in which case the
transaction rolls back and an exception is raised. -/
def updateAttempt (s : TaskState) (new_status : String) (conflict : Bool) :
    Except String TaskState :=
  if conflict then .error "Task was modified by another transaction"
  else .ok { status := new_status, version := s.version + 1 }

/-- Embeds the for-attempt-in-range(max_retries) loop of Task.update_status.
Components of the result: the committed task row, the returned value or the
raised (last) error, and the number of attempts performed. -/
def updateStatusLoop (conflictAt : Nat → Bool) (s : TaskState) (new_status : String) :
    Nat → Nat → TaskState × Except String Bool × Nat
  | attempt, 0 => (s, .error "Task was modified by another transaction", attempt)
  | attempt, n + 1 =>
    match updateAttempt s new_status (conflictAt attempt) with
    | .ok s1 => (s1, .ok true, attempt + 1)
    | .error _ => updateStatusLoop conflictAt s new_status (attempt + 1) n

/-- Embeds Task.update_status(new_status, max_retries=3); conflictAt is the
oracle saying which attempts hit a concurrent writer. -/
def update_status (conflictAt : Nat → Bool) (s : TaskState) (new_status : String)
    (max_retries : Nat) : TaskState × Except String Bool × Nat :=
  updateStatusLoop conflictAt s new_status 0 max_retries

/-- C3: update_status with the default max_retries=3 performs at most 3
attempts; a successful attempt sets the new status and increments the
version by exactly one; if every attempt detects a conflicting write, the
call raises the last error (it does not silently return) and the row is
unchanged; and it succeeds as soon as some attempt is conflict-free. -/
theorem update_status_retries_bounded (conflictAt : Nat → Bool) (s : TaskState)
    (ns : String) :
    (update_status conflictAt s ns 3).2.2 ≤ 3 ∧
    ((update_status conflictAt s ns 3).2.1 = .ok true →
      (update_status conflictAt s ns 3).1 = ⟨ns, s.version + 1⟩) ∧
    ((conflictAt 0 = true ∧ conflictAt 1 = true ∧ conflictAt 2 = true) →
      (update_status conflictAt s ns 3).2.1 =
        .error "Task was modified by another transaction" ∧
      (update_status conflictAt s ns 3).1 = s) ∧
    ((conflictAt 0 = false ∨ conflictAt 1 = false ∨ conflictAt 2 = false) →
      (update_status conflictAt s ns 3).2.1 = .ok true) := by
  cases h0 : conflictAt 0 <;> cases h1 : conflictAt 1 <;> cases h2 : conflictAt 2 <;>
    simp [update_status, updateStatusLoop, updateAttempt, h0, h1, h2]

/-- Witness for C3 at a concrete input: conflicts on the first two attempts,
success on the third. -/
theorem update_status_retries_bounded_witness :
    (update_status (fun i => decide (i < 2)) ⟨"pending", 5⟩ "running" 3).2.1 = .ok true ∧
    (update_status (fun i => decide (i < 2)) ⟨"pending", 5⟩ "running" 3).1 =
      ⟨"running", 6⟩ := by
  have h := update_status_retries_bounded (fun i => decide (i < 2)) ⟨"pending", 5⟩ "running"
  have hok := h.2.2.2 (Or.inr (Or.inr (by decide)))
  exact ⟨hok, h.2.1 hok⟩

/-! ## TaskScheduler.schedule_task (src/scheduler.py) -/

structure Job where
  job_id : String
  cron : String
deriving Repr, DecidableEq

/-- Embeds TaskScheduler.schedule_task(task).  The APScheduler job store is a
list of jobs keyed by str(task.id); parseCron abstracts the external
CronTrigger.from_crontab and holds exactly on valid 5-field cron strings.  A
task whose schedule is null or empty is skipped; otherwise any existing job
for the task id is removed first, then the cron string is parsed (a parse
failure raises, with the old job already removed), then the new job is
installed.  Components of the result: the job store, the raised error. -/
def schedule_task (parseCron : String → Bool) (jobs : List Job) (task_id : Nat)
    (schedule : Option String) : List Job × Option String :=
  match schedule with
  | none => (jobs, none)
  | some s =>
    if s = "" then (jobs, none)
    else
      let cleared := jobs.filter (fun j => !(j.job_id == toString task_id))
      if parseCron s then (cleared ++ [⟨toString task_id, s⟩], none)
      else (cleared, some "Failed to schedule task")

/-- C8: schedule_task is idempotent per task id: two calls for the same task
with different (valid, non-empty) cron strings leave exactly one job for
that task id, carrying the second cron string; and the second call clears
every pre-existing job for the id before installing the new one. -/
theorem schedule_task_idempotent (parseCron : String → Bool) (jobs : List Job)
    (tid : Nat) (s1 s2 : String) (hs1 : s1 ≠ "") (hs2 : s2 ≠ "")
    (hp1 : parseCron s1 = true) (hp2 : parseCron s2 = true) :
    (schedule_task parseCron jobs tid (some s1)).2 = none ∧
    (schedule_task parseCron (schedule_task parseCron jobs tid (some s1)).1 tid
      (some s2)).2 = none ∧
    ((schedule_task parseCron (schedule_task parseCron jobs tid (some s1)).1 tid
        (some s2)).1).filter (fun j => j.job_id == toString tid) =
      [⟨toString tid, s2⟩] ∧
    (schedule_task parseCron (schedule_task parseCron jobs tid (some s1)).1 tid
        (some s2)).1 =
      ((schedule_task parseCron jobs tid (some s1)).1).filter
        (fun j => !(j.job_id == toString tid)) ++ [⟨toString tid, s2⟩] := by
  refine ⟨by simp [schedule_task, hs1, hp1], by simp [schedule_task, hs1, hs2, hp1, hp2],
    ?_, by simp [schedule_task, hs1, hs2, hp1, hp2]⟩
  simp only [schedule_task, hs1, hs2, hp1, hp2, reduceIte]
  rw [List.filter_append, List.filter_append, List.filter_filter]
  simp [Bool.and_not_self]

/-- Witness for C8 at a concrete input. -/
theorem schedule_task_idempotent_witness :
    ((schedule_task (fun _ => true)
        (schedule_task (fun _ => true) [⟨"1", "0 0 * * *"⟩, ⟨"2", "* * * * *"⟩] 1
          (some "1 2 3 4 5")).1 1
        (some "5 4 3 2 1")).1).filter (fun j => j.job_id == toString 1) =
      [⟨toString 1, "5 4 3 2 1"⟩] :=
  (schedule_task_idempotent (fun _ => true) [⟨"1", "0 0 * * *"⟩, ⟨"2", "* * * * *"⟩] 1
    "1 2 3 4 5" "5 4 3 2 1" (by decide) (by decide) rfl rfl).2.2.1

/-! ## PubSub (src/pubsub.py) -/

section PubSub

variable {α : Type}

/-- Embeds the Message dataclass: a timestamped message for a topic. -/
structure PMessage (α : Type) where
  topic : String
  data : α
  timestamp : Nat
deriving Repr, DecidableEq

/-- Embeds one subscriber queue.Queue: maxsize 0 means unbounded (the
default used by PubSub.subscribe). -/
structure SubQueue (α : Type) where
  maxsize : Nat
  items : List (PMessage α)
deriving Repr, DecidableEq

/-- Python queue.Queue.put_nowait raises Full exactly when 0 < maxsize and
maxsize ≤ qsize. -/
def qFull (q : SubQueue α) : Bool :=
  decide (0 < q.maxsize) && decide (q.maxsize ≤ q.items.length)

/-- Embeds put_nowait: none models the Full exception. -/
def put_nowait (q : SubQueue α) (m : PMessage α) : Option (SubQueue α) :=
  if qFull q then none else some { q with items := q.items ++ [m] }

/-- State of a PubSub instance: the _subscribers dict (topic to set of
queue handles, a set being modelled as a duplicate-free list) and the heap
of queue objects, addressed by handle. -/
structure PubSubState (α : Type) where
  subs : List (String × List Nat)
  queues : List (Nat × SubQueue α)
deriving Repr, DecidableEq

def lookupQ (qs : List (Nat × SubQueue α)) (qid : Nat) : Option (SubQueue α) :=
  (qs.find? (fun p => p.1 == qid)).map (fun p => p.2)

def getQueue (st : PubSubState α) (qid : Nat) : Option (SubQueue α) :=
  lookupQ st.queues qid

def topicSubs (st : PubSubState α) (topic : String) : List Nat :=
  match st.subs.find? (fun p => p.1 == topic) with
  | some p => p.2
  | none => []

/-- Mutates a queue object in place (the Python queues are shared objects;
only the entry with the given handle changes). -/
def updateQueue (qs : List (Nat × SubQueue α)) (qid : Nat) (q : SubQueue α) :
    List (Nat × SubQueue α) :=
  qs.map (fun p => if p.1 == qid then (qid, q) else p)

/-- Embeds PubSub.unsubscribe(topic, message_queue): discard the queue from
the topic's subscriber set, and drop the topic entirely once its set is
empty. -/
def unsubscribe (st : PubSubState α) (topic : String) (qid : Nat) : PubSubState α :=
  match st.subs.find? (fun p => p.1 == topic) with
  | none => st
  | some p =>
    let qids1 := p.2.filter (fun x => !(x == qid))
    if qids1.isEmpty then
      { st with subs := st.subs.filter (fun e => !(e.1 == topic)) }
    else
      { st with subs := st.subs.map (fun e => if e.1 == topic then (e.1, qids1) else e) }

/-- Embeds the body of the fan-out loop of PubSub.publish for one subscriber
queue: put_nowait the message, collecting the queue as dead when it is
full. -/
def deliverStep (m : PMessage α) (acc : List (Nat × SubQueue α) × List Nat) (qid : Nat) :
    List (Nat × SubQueue α) × List Nat :=
  match lookupQ acc.1 qid with
  | none => acc
  | some q =>
    match put_nowait q m with
    | some q1 => (updateQueue acc.1 qid q1, acc.2)
    | none => (acc.1, acc.2 ++ [qid])

/-- Embeds PubSub.publish(topic, data): build one timestamped message, put
it on every queue subscribed to the topic without blocking, then
unsubscribe exactly the queues found full.  The function is total and
returns no error: publish never raises and never blocks the publisher. -/
def publish (st : PubSubState α) (topic : String) (payload : α) (now : Nat) :
    PubSubState α :=
  let m : PMessage α := ⟨topic, payload, now⟩
  match st.subs.find? (fun p => p.1 == topic) with
  | none => st
  | some p =>
    let res := p.2.foldl (deliverStep m) (st.queues, [])
    res.2.foldl (fun s qid => unsubscribe s topic qid) { st with queues := res.1 }

theorem lookupQ_cons (p : Nat × SubQueue α) (rest : List (Nat × SubQueue α)) (qid : Nat) :
    lookupQ (p :: rest) qid = if p.1 == qid then some p.2 else lookupQ rest qid := by
  simp only [lookupQ, List.find?_cons]
  cases h : p.1 == qid <;> simp

theorem updateQueue_cons (p : Nat × SubQueue α) (rest : List (Nat × SubQueue α))
    (qid : Nat) (q : SubQueue α) :
    updateQueue (p :: rest) qid q =
      (if p.1 == qid then (qid, q) else p) :: updateQueue rest qid q := rfl

theorem lookupQ_updateQueue_self (qs : List (Nat × SubQueue α)) (qid : Nat)
    (q q0 : SubQueue α) (h : lookupQ qs qid = some q0) :
    lookupQ (updateQueue qs qid q) qid = some q := by
  induction qs with
  | nil => simp [lookupQ] at h
  | cons p rest ih =>
    rw [lookupQ_cons] at h
    rw [updateQueue_cons, lookupQ_cons]
    cases hp : p.1 == qid with
    | false =>
      rw [if_neg (by simp [hp])] at h
      rw [if_neg (by simp [hp])]
      exact ih h
    | true => simp [hp]

theorem lookupQ_updateQueue_ne (qs : List (Nat × SubQueue α)) (qid qid1 : Nat)
    (q : SubQueue α) (h : qid1 ≠ qid) :
    lookupQ (updateQueue qs qid q) qid1 = lookupQ qs qid1 := by
  induction qs with
  | nil => rfl
  | cons p rest ih =>
    rw [updateQueue_cons, lookupQ_cons, lookupQ_cons]
    cases hp : p.1 == qid with
    | false =>
      simp only [hp, Bool.false_eq_true, if_false]
      cases hp1 : p.1 == qid1 <;> simp [hp1, ih]
    | true =>
      have hpq : p.1 = qid := by simpa using hp
      have hq1 : (qid == qid1) = false := beq_eq_false_iff_ne.mpr (fun he => h he.symm)
      have hp1 : (p.1 == qid1) = false := by rw [hpq]; exact hq1
      simp [hp, hq1, hp1, ih]

theorem deliver_fold_spec (m : PMessage α) (L : List Nat) (qs : List (Nat × SubQueue α))
    (ds : List Nat) (hnd : L.Nodup) :
    (∀ qid, qid ∉ L →
      lookupQ (L.foldl (deliverStep m) (qs, ds)).1 qid = lookupQ qs qid) ∧
    (∀ d ∈ ds, d ∈ (L.foldl (deliverStep m) (qs, ds)).2) ∧
    (∀ d ∈ (L.foldl (deliverStep m) (qs, ds)).2, d ∈ ds ∨ d ∈ L) ∧
    (∀ qid q, qid ∈ L → lookupQ qs qid = some q → qFull q = false →
      lookupQ (L.foldl (deliverStep m) (qs, ds)).1 qid =
        some { q with items := q.items ++ [m] } ∧
      (qid ∉ ds → qid ∉ (L.foldl (deliverStep m) (qs, ds)).2)) ∧
    (∀ qid q, qid ∈ L → lookupQ qs qid = some q → qFull q = true →
      lookupQ (L.foldl (deliverStep m) (qs, ds)).1 qid = some q ∧
      qid ∈ (L.foldl (deliverStep m) (qs, ds)).2) := by
  induction L generalizing qs ds with
  | nil =>
    refine ⟨fun _ _ => rfl, fun d hd => hd, fun d hd => Or.inl hd, ?_, ?_⟩ <;>
      intro qid q hmem <;> cases hmem
  | cons qid0 rest ih =>
    obtain ⟨h0, hndr⟩ := List.nodup_cons.mp hnd
    have hfold : (qid0 :: rest).foldl (deliverStep m) (qs, ds) =
        rest.foldl (deliverStep m) (deliverStep m (qs, ds) qid0) := rfl
    rw [hfold]
    cases hq0 : lookupQ qs qid0 with
    | none =>
      have hstep : deliverStep m (qs, ds) qid0 = (qs, ds) := by
        simp [deliverStep, hq0]
      rw [hstep]
      obtain ⟨f, dm, dsb, nf, fl⟩ := ih qs ds hndr
      refine ⟨?_, dm, ?_, ?_, ?_⟩
      · exact fun qid hq => f qid (fun hmem => hq (List.mem_cons_of_mem _ hmem))
      · intro d hd
        rcases dsb d hd with h | h
        · exact Or.inl h
        · exact Or.inr (List.mem_cons_of_mem _ h)
      · intro qid q hmem hl hfull
        rcases List.mem_cons.mp hmem with rfl | hmem2
        · rw [hq0] at hl; cases hl
        · exact nf qid q hmem2 hl hfull
      · intro qid q hmem hl hfull
        rcases List.mem_cons.mp hmem with rfl | hmem2
        · rw [hq0] at hl; cases hl
        · exact fl qid q hmem2 hl hfull
    | some q0 =>
      cases hful : qFull q0 with
      | false =>
        have hstep : deliverStep m (qs, ds) qid0 =
            (updateQueue qs qid0 { q0 with items := q0.items ++ [m] }, ds) := by
          simp [deliverStep, hq0, put_nowait, hful]
        rw [hstep]
        obtain ⟨f, dm, dsb, nf, fl⟩ :=
          ih (updateQueue qs qid0 { q0 with items := q0.items ++ [m] }) ds hndr
        have hupSelf : lookupQ (updateQueue qs qid0 { q0 with items := q0.items ++ [m] })
            qid0 = some { q0 with items := q0.items ++ [m] } :=
          lookupQ_updateQueue_self qs qid0 _ q0 hq0
        have hupNe : ∀ qid, qid ≠ qid0 →
            lookupQ (updateQueue qs qid0 { q0 with items := q0.items ++ [m] }) qid =
              lookupQ qs qid :=
          fun qid h => lookupQ_updateQueue_ne qs qid0 qid _ h
        refine ⟨?_, dm, ?_, ?_, ?_⟩
        · intro qid hq
          have hne : qid ≠ qid0 := fun he => hq (he ▸ List.mem_cons_self _ _)
          rw [f qid (fun hm => hq (List.mem_cons_of_mem _ hm)), hupNe qid hne]
        · intro d hd
          rcases dsb d hd with h | h
          · exact Or.inl h
          · exact Or.inr (List.mem_cons_of_mem _ h)
        · intro qid q hmem hl hfull
          rcases List.mem_cons.mp hmem with rfl | hmem2
          · have hq : q = q0 := Option.some.inj (hl.symm.trans hq0)
            subst hq
            constructor
            · rw [f qid h0, hupSelf]
            · intro hds hmem3
              rcases dsb qid hmem3 with h | h
              · exact hds h
              · exact h0 h
          · have hne : qid ≠ qid0 := fun he => h0 (he ▸ hmem2)
            exact nf qid q hmem2 (by rw [hupNe qid hne]; exact hl) hfull
        · intro qid q hmem hl hfull
          rcases List.mem_cons.mp hmem with rfl | hmem2
          · have hq : q = q0 := Option.some.inj (hl.symm.trans hq0)
            subst hq
            rw [hful] at hfull
            cases hfull
          · have hne : qid ≠ qid0 := fun he => h0 (he ▸ hmem2)
            exact fl qid q hmem2 (by rw [hupNe qid hne]; exact hl) hfull
      | true =>
        have hstep : deliverStep m (qs, ds) qid0 = (qs, ds ++ [qid0]) := by
          simp [deliverStep, hq0, put_nowait, hful]
        rw [hstep]
        obtain ⟨f, dm, dsb, nf, fl⟩ := ih qs (ds ++ [qid0]) hndr
        refine ⟨?_, ?_, ?_, ?_, ?_⟩
        · exact fun qid hq => f qid (fun hmem => hq (List.mem_cons_of_mem _ hmem))
        · exact fun d hd => dm d (List.mem_append_left _ hd)
        · intro d hd
          rcases dsb d hd with h | h
          · rcases List.mem_append.mp h with h2 | h2
            · exact Or.inl h2
            · exact Or.inr (List.mem_singleton.mp h2 ▸ List.mem_cons_self _ _)
          · exact Or.inr (List.mem_cons_of_mem _ h)
        · intro qid q hmem hl hfull
          rcases List.mem_cons.mp hmem with rfl | hmem2
          · have hq : q = q0 := Option.some.inj (hl.symm.trans hq0)
            subst hq
            rw [hful] at hfull
            cases hfull
          · have hne : qid ≠ qid0 := fun he => h0 (he ▸ hmem2)
            obtain ⟨hlook, hdead⟩ := nf qid q hmem2 hl hfull
            refine ⟨hlook, fun hds => hdead ?_⟩
            intro hmem3
            rcases List.mem_append.mp hmem3 with h2 | h2
            · exact hds h2
            · exact hne (List.mem_singleton.mp h2)
        · intro qid q hmem hl hfull
          rcases List.mem_cons.mp hmem with rfl | hmem2
          · refine ⟨by rw [f qid h0]; exact hl, ?_⟩
            exact dm qid (List.mem_append_right _ (List.mem_singleton.mpr rfl))
          · exact fl qid q hmem2 hl hfull

theorem unsubscribe_queues (st : PubSubState α) (topic : String) (qid : Nat) :
    (unsubscribe st topic qid).queues = st.queues := by
  simp only [unsubscribe]
  split
  · rfl
  · split <;> rfl

theorem find?_map_keep (l : List (String × List Nat)) (topic : String)
    (g : String × List Nat → String × List Nat) (hg : ∀ e, (g e).1 = e.1) :
    (l.map g).find? (fun p => p.1 == topic) =
      (l.find? (fun p => p.1 == topic)).map g := by
  induction l with
  | nil => rfl
  | cons e rest ih =>
    simp only [List.map_cons, List.find?_cons, hg e]
    cases he : e.1 == topic <;> simp [he, ih]

theorem topicSubs_unsubscribe (st : PubSubState α) (topic : String) (qid : Nat) :
    topicSubs (unsubscribe st topic qid) topic =
      (topicSubs st topic).filter (fun x => !(x == qid)) := by
  cases hfind : st.subs.find? (fun p => p.1 == topic) with
  | none =>
    have h1 : unsubscribe st topic qid = st := by simp [unsubscribe, hfind]
    rw [h1]
    simp [topicSubs, hfind]
  | some p =>
    have hts : topicSubs st topic = p.2 := by simp [topicSubs, hfind]
    cases he : (p.2.filter (fun x => !(x == qid))).isEmpty with
    | true =>
      have h1 : unsubscribe st topic qid =
          { st with subs := st.subs.filter (fun e => !(e.1 == topic)) } := by
        simp [unsubscribe, hfind, he]
      rw [h1]
      have h2 : (st.subs.filter (fun e => !(e.1 == topic))).find?
          (fun p => p.1 == topic) = none := by
        rw [List.find?_eq_none]
        intro x hx
        rcases List.mem_filter.mp hx with ⟨_, hneg⟩
        simp at hneg
        simp [hneg]
      rw [hts]
      simp only [topicSubs, h2]
      exact (List.isEmpty_iff.mp he).symm
    | false =>
      have h1 : unsubscribe st topic qid =
          { st with subs := st.subs.map (fun e =>
              if e.1 == topic then (e.1, p.2.filter (fun x => !(x == qid))) else e) } := by
        simp [unsubscribe, hfind, he]
      rw [h1, hts]
      simp only [topicSubs]
      rw [find?_map_keep _ _ _ (fun e => by cases hc : e.1 == topic <;> simp [hc])]
      rw [hfind]
      have hp : p.1 = topic := by simpa using List.find?_some hfind
      simp [hp]

theorem unsubscribe_fold_queues (dead : List Nat) (s : PubSubState α) (topic : String) :
    (dead.foldl (fun a q => unsubscribe a topic q) s).queues = s.queues := by
  induction dead generalizing s with
  | nil => rfl
  | cons d rest ih => rw [List.foldl_cons, ih, unsubscribe_queues]

theorem topicSubs_unsubscribe_fold (dead : List Nat) (s : PubSubState α) (topic : String) :
    topicSubs (dead.foldl (fun a q => unsubscribe a topic q) s) topic =
      (topicSubs s topic).filter (fun x => !decide (x ∈ dead)) := by
  induction dead generalizing s with
  | nil => simp
  | cons d rest ih =>
    rw [List.foldl_cons, ih, topicSubs_unsubscribe, List.filter_filter]
    apply List.filter_congr
    intro x _
    by_cases hx : x = d <;> by_cases hc : x ∈ rest <;> simp [hx, hc]

/-- C9: publish(topic, payload) appends exactly one timestamped message to
every currently subscribed queue of the topic that is not full, leaving it
subscribed; a queue that is full at delivery time receives nothing and is
dropped from the topic's subscriber set (automatically unsubscribed); and
the queue of any handle not subscribed to the topic is untouched.  The
embedding of publish is a total function returning no error: it never
raises and never blocks the publisher. -/
theorem publish_fanout (st : PubSubState α) (topic : String) (payload : α) (now : Nat)
    (hnd : (topicSubs st topic).Nodup) :
    (∀ qid q, qid ∈ topicSubs st topic → getQueue st qid = some q → qFull q = false →
      getQueue (publish st topic payload now) qid =
        some { q with items := q.items ++ [⟨topic, payload, now⟩] } ∧
      qid ∈ topicSubs (publish st topic payload now) topic) ∧
    (∀ qid q, qid ∈ topicSubs st topic → getQueue st qid = some q → qFull q = true →
      getQueue (publish st topic payload now) qid = some q ∧
      qid ∉ topicSubs (publish st topic payload now) topic) ∧
    (∀ qid, qid ∉ topicSubs st topic →
      getQueue (publish st topic payload now) qid = getQueue st qid) := by
  cases hfind : st.subs.find? (fun p => p.1 == topic) with
  | none =>
    have hpub : publish st topic payload now = st := by simp [publish, hfind]
    have hts : topicSubs st topic = [] := by simp [topicSubs, hfind]
    rw [hpub, hts]
    refine ⟨?_, ?_, fun _ _ => rfl⟩ <;> intro qid q hmem <;> cases hmem
  | some p =>
    have hts : topicSubs st topic = p.2 := by simp [topicSubs, hfind]
    have hpub : publish st topic payload now =
        (p.2.foldl (deliverStep ⟨topic, payload, now⟩) (st.queues, [])).2.foldl
          (fun s qid => unsubscribe s topic qid)
          { st with queues :=
              (p.2.foldl (deliverStep ⟨topic, payload, now⟩) (st.queues, [])).1 } := by
      simp [publish, hfind]
    obtain ⟨f, dm, dsb, nf, fl⟩ :=
      deliver_fold_spec (⟨topic, payload, now⟩ : PMessage α) p.2 st.queues [] (hts ▸ hnd)
    have hqueues : (publish st topic payload now).queues =
        (p.2.foldl (deliverStep ⟨topic, payload, now⟩) (st.queues, [])).1 := by
      rw [hpub, unsubscribe_fold_queues]
    have hsubs : topicSubs (publish st topic payload now) topic =
        p.2.filter (fun x =>
          !decide (x ∈ (p.2.foldl (deliverStep ⟨topic, payload, now⟩) (st.queues, [])).2)) := by
      rw [hpub, topicSubs_unsubscribe_fold]
      have : topicSubs { st with queues :=
          (p.2.foldl (deliverStep ⟨topic, payload, now⟩) (st.queues, [])).1 } topic =
          p.2 := by simp [topicSubs, hfind]
      rw [this]
    refine ⟨?_, ?_, ?_⟩
    · intro qid q hmem hq hfull
      rw [hts] at hmem
      obtain ⟨hlook, hdead⟩ := nf qid q hmem hq hfull
      refine ⟨?_, ?_⟩
      · show lookupQ (publish st topic payload now).queues qid = _
        rw [hqueues]
        exact hlook
      · rw [hsubs]
        refine List.mem_filter.mpr ⟨hmem, ?_⟩
        simp [hdead (List.not_mem_nil qid)]
    · intro qid q hmem hq hfull
      rw [hts] at hmem
      obtain ⟨hlook, hdead⟩ := fl qid q hmem hq hfull
      refine ⟨?_, ?_⟩
      · show lookupQ (publish st topic payload now).queues qid = _
        rw [hqueues]
        exact hlook
      · rw [hsubs]
        intro hmem2
        rcases List.mem_filter.mp hmem2 with ⟨-, hneg⟩
        simp at hneg
        exact hneg hdead
    · intro qid hmem
      rw [hts] at hmem
      show lookupQ (publish st topic payload now).queues qid = _
      rw [hqueues]
      exact f qid hmem

/-- Witness for C9 at a concrete input: subscriber queue 1 is unbounded,
queue 2 is full (maxsize 1 with one queued item). -/
theorem publish_fanout_witness :
    getQueue (publish (⟨[("t", [1, 2])], [(1, ⟨0, []⟩), (2, ⟨1, [⟨"t", 7, 0⟩]⟩)]⟩ :
        PubSubState Nat) "t" 42 5) 1 = some ⟨0, [⟨"t", 42, 5⟩]⟩ ∧
    2 ∉ topicSubs (publish (⟨[("t", [1, 2])], [(1, ⟨0, []⟩), (2, ⟨1, [⟨"t", 7, 0⟩]⟩)]⟩ :
        PubSubState Nat) "t" 42 5) "t" := by
  have h := publish_fanout (⟨[("t", [1, 2])], [(1, ⟨0, []⟩), (2, ⟨1, [⟨"t", 7, 0⟩]⟩)]⟩ :
      PubSubState Nat) "t" 42 5 (by decide)
  exact ⟨(h.1 1 ⟨0, []⟩ (by decide) rfl rfl).1,
    (h.2.1 2 ⟨1, [⟨"t", 7, 0⟩]⟩ (by decide) rfl rfl).2⟩

end PubSub

/-! ## BlockValidationService.validate_parameters
(src/services/block_services.py) -/

/-- Converted parameter values: Union[str, int, float, bool] in the source.
A float is carried symbolically by its literal; only conversion
success/failure matters to the modelled code. -/
inductive PValue where
  | pstr (s : String)
  | pint (n : Int)
  | pfloat (s : String)
  | pbool (b : Bool)
deriving Repr, DecidableEq

/-- One entry of a block's declared parameter schema: the declared type,
config.get('required', False), and the declared default when 'default' is in
the config dict. -/
structure ParamConfig where
  ptype : String
  required : Bool
  default : Option PValue
deriving Repr, DecidableEq

/-- Embeds BlockValidationService._convert_parameter_value(value, param_type)
on string input values (the function's declared signature).  The Python
builtins int() and float() are external: pyInt and pyFloatOk abstract their
success on a string, none modelling the ValueError they raise.  For
'boolean' the code compares value.lower() with 'true', which never raises on
a string; any other declared type returns the value unchanged. -/
def convert_parameter_value (pyInt : String → Option Int) (pyFloatOk : String → Bool)
    (value : String) (param_type : String) : Option PValue :=
  if param_type = "integer" then (pyInt value).map PValue.pint
  else if param_type = "float" then
    if pyFloatOk value then some (PValue.pfloat value) else none
  else if param_type = "boolean" then some (PValue.pbool (value.toLower == "true"))
  else some (PValue.pstr value)

def lookupParam (parameters : List (String × String)) (name : String) : Option String :=
  (parameters.find? (fun p => p.1 == name)).map (fun p => p.2)

/-- Embeds the for-name-config loop of validate_parameters, accumulating the
validated dict; .error models the raised ValueError. -/
def validateLoop (pyInt : String → Option Int) (pyFloatOk : String → Bool)
    (parameters : List (String × String)) :
    List (String × ParamConfig) → List (String × PValue) →
      Except String (List (String × PValue))
  | [], acc => .ok acc
  | (name, config) :: rest, acc =>
    match lookupParam parameters name with
    | some v =>
      match convert_parameter_value pyInt pyFloatOk v config.ptype with
      | some cv => validateLoop pyInt pyFloatOk parameters rest (acc ++ [(name, cv)])
      | none => .error ("Invalid value for parameter " ++ name)
    | none =>
      if config.required then .error ("Required parameter " ++ name ++ " is missing")
      else
        match config.default with
        | some d => validateLoop pyInt pyFloatOk parameters rest (acc ++ [(name, d)])
        | none => validateLoop pyInt pyFloatOk parameters rest acc

/-- Embeds BlockValidationService.validate_parameters(block_name, block_type,
parameters).  registry abstracts manager.get_block combined with reading the
found block's declared parameter schema; none models a registry miss, for
which the code raises ValueError before looking at any parameter. -/
def validate_parameters (pyInt : String → Option Int) (pyFloatOk : String → Bool)
    (registry : String → String → Option (List (String × ParamConfig)))
    (block_name block_type : String) (parameters : List (String × String)) :
    Except String (List (String × PValue)) :=
  match registry block_type block_name with
  | none => .error (block_type ++ " block " ++ block_name ++ " not found")
  | some block_params => validateLoop pyInt pyFloatOk parameters block_params []

theorem validateLoop_spec (pyInt : String → Option Int) (pyFloatOk : String → Bool)
    (parameters : List (String × String)) (schema : List (String × ParamConfig))
    (acc : List (String × PValue)) :
    (∀ vs, validateLoop pyInt pyFloatOk parameters schema acc = .ok vs →
      ∀ kv ∈ acc, kv ∈ vs) ∧
    (∀ vs, validateLoop pyInt pyFloatOk parameters schema acc = .ok vs →
      ∀ kv ∈ vs, kv ∈ acc ∨ kv.1 ∈ schema.map Prod.fst) ∧
    (∀ vs, validateLoop pyInt pyFloatOk parameters schema acc = .ok vs →
      ∀ nc ∈ schema, lookupParam parameters nc.1 = none → nc.2.required = false →
        ∀ d, nc.2.default = some d → (nc.1, d) ∈ vs) ∧
    ((∃ e, validateLoop pyInt pyFloatOk parameters schema acc = .error e) ↔
      ∃ nc ∈ schema, (lookupParam parameters nc.1 = none ∧ nc.2.required = true) ∨
        (∃ v, lookupParam parameters nc.1 = some v ∧
          convert_parameter_value pyInt pyFloatOk v nc.2.ptype = none)) := by
  induction schema generalizing acc with
  | nil =>
    refine ⟨?_, ?_, ?_, ?_⟩
    · intro vs hvs kv hkv
      cases hvs
      exact hkv
    · intro vs hvs kv hkv
      cases hvs
      exact Or.inl hkv
    · intro vs _ nc hnc
      cases hnc
    · constructor
      · rintro ⟨e, he⟩
        cases he
      · rintro ⟨nc, hnc, -⟩
        cases hnc
  | cons entry rest ih =>
    obtain ⟨name, config⟩ := entry
    cases hl : lookupParam parameters name with
    | some v =>
      cases hc : convert_parameter_value pyInt pyFloatOk v config.ptype with
      | some cv =>
        have hloop : validateLoop pyInt pyFloatOk parameters ((name, config) :: rest) acc =
            validateLoop pyInt pyFloatOk parameters rest (acc ++ [(name, cv)]) := by
          simp [validateLoop, hl, hc]
        obtain ⟨p1, p2, p3, p4⟩ := ih (acc ++ [(name, cv)])
        rw [hloop]
        refine ⟨?_, ?_, ?_, ?_⟩
        · exact fun vs hvs kv hkv => p1 vs hvs kv (List.mem_append_left _ hkv)
        · intro vs hvs kv hkv
          rcases p2 vs hvs kv hkv with h | h
          · rcases List.mem_append.mp h with h2 | h2
            · exact Or.inl h2
            · have : kv = (name, cv) := List.mem_singleton.mp h2
              exact Or.inr (by rw [this]; exact List.mem_cons_self _ _)
          · exact Or.inr (List.mem_cons_of_mem _ h)
        · intro vs hvs nc hnc hnone hreq d hd
          rcases List.mem_cons.mp hnc with rfl | hnc2
          · rw [hl] at hnone
            cases hnone
          · exact p3 vs hvs nc hnc2 hnone hreq d hd
        · rw [p4]
          constructor
          · rintro ⟨nc, hnc, hcase⟩
            exact ⟨nc, List.mem_cons_of_mem _ hnc, hcase⟩
          · rintro ⟨nc, hnc, hcase⟩
            rcases List.mem_cons.mp hnc with rfl | hnc2
            · exfalso
              rcases hcase with ⟨hnone, -⟩ | ⟨v2, hv2, hconv⟩
              · rw [hl] at hnone
                cases hnone
              · rw [hl] at hv2
                have : v2 = v := (Option.some.inj hv2).symm
                rw [this, hc] at hconv
                cases hconv
            · exact ⟨nc, hnc2, hcase⟩
      | none =>
        have hloop : validateLoop pyInt pyFloatOk parameters ((name, config) :: rest) acc =
            .error ("Invalid value for parameter " ++ name) := by
          simp [validateLoop, hl, hc]
        rw [hloop]
        refine ⟨?_, ?_, ?_, ?_⟩
        · exact fun vs hvs => nomatch hvs
        · exact fun vs hvs => nomatch hvs
        · exact fun vs hvs => nomatch hvs
        · constructor
          · intro _
            exact ⟨(name, config), List.mem_cons_self _ _, Or.inr ⟨v, hl, hc⟩⟩
          · intro _
            exact ⟨_, rfl⟩
    | none =>
      cases hr : config.required with
      | true =>
        have hloop : validateLoop pyInt pyFloatOk parameters ((name, config) :: rest) acc =
            .error ("Required parameter " ++ name ++ " is missing") := by
          simp [validateLoop, hl, hr]
        rw [hloop]
        refine ⟨?_, ?_, ?_, ?_⟩
        · exact fun vs hvs => nomatch hvs
        · exact fun vs hvs => nomatch hvs
        · exact fun vs hvs => nomatch hvs
        · constructor
          · intro _
            exact ⟨(name, config), List.mem_cons_self _ _, Or.inl ⟨hl, hr⟩⟩
          · intro _
            exact ⟨_, rfl⟩
      | false =>
        cases hd : config.default with
        | some d0 =>
          have hloop : validateLoop pyInt pyFloatOk parameters ((name, config) :: rest) acc =
              validateLoop pyInt pyFloatOk parameters rest (acc ++ [(name, d0)]) := by
            simp [validateLoop, hl, hr, hd]
          obtain ⟨p1, p2, p3, p4⟩ := ih (acc ++ [(name, d0)])
          rw [hloop]
          refine ⟨?_, ?_, ?_, ?_⟩
          · exact fun vs hvs kv hkv => p1 vs hvs kv (List.mem_append_left _ hkv)
          · intro vs hvs kv hkv
            rcases p2 vs hvs kv hkv with h | h
            · rcases List.mem_append.mp h with h2 | h2
              · exact Or.inl h2
              · have : kv = (name, d0) := List.mem_singleton.mp h2
                exact Or.inr (by rw [this]; exact List.mem_cons_self _ _)
            · exact Or.inr (List.mem_cons_of_mem _ h)
          · intro vs hvs nc hnc hnone hreq d hdd
            rcases List.mem_cons.mp hnc with rfl | hnc2
            · have : d = d0 := by
                rw [hd] at hdd
                exact (Option.some.inj hdd).symm
              rw [this]
              exact p1 vs hvs (name, d0)
                (List.mem_append_right _ (List.mem_singleton.mpr rfl))
            · exact p3 vs hvs nc hnc2 hnone hreq d hdd
          · rw [p4]
            constructor
            · rintro ⟨nc, hnc, hcase⟩
              exact ⟨nc, List.mem_cons_of_mem _ hnc, hcase⟩
            · rintro ⟨nc, hnc, hcase⟩
              rcases List.mem_cons.mp hnc with rfl | hnc2
              · exfalso
                rcases hcase with ⟨-, hreq⟩ | ⟨v2, hv2, -⟩
                · rw [hr] at hreq
                  cases hreq
                · rw [hl] at hv2
                  cases hv2
              · exact ⟨nc, hnc2, hcase⟩
        | none =>
          have hloop : validateLoop pyInt pyFloatOk parameters ((name, config) :: rest) acc =
              validateLoop pyInt pyFloatOk parameters rest acc := by
            simp [validateLoop, hl, hr, hd]
          obtain ⟨p1, p2, p3, p4⟩ := ih acc
          rw [hloop]
          refine ⟨p1, ?_, ?_, ?_⟩
          · intro vs hvs kv hkv
            rcases p2 vs hvs kv hkv with h | h
            · exact Or.inl h
            · exact Or.inr (List.mem_cons_of_mem _ h)
          · intro vs hvs nc hnc hnone hreq d hdd
            rcases List.mem_cons.mp hnc with rfl | hnc2
            · rw [hd] at hdd
              cases hdd
            · exact p3 vs hvs nc hnc2 hnone hreq d hdd
          · rw [p4]
            constructor
            · rintro ⟨nc, hnc, hcase⟩
              exact ⟨nc, List.mem_cons_of_mem _ hnc, hcase⟩
            · rintro ⟨nc, hnc, hcase⟩
              rcases List.mem_cons.mp hnc with rfl | hnc2
              · exfalso
                rcases hcase with ⟨-, hreq⟩ | ⟨v2, hv2, -⟩
                · rw [hr] at hreq
                  cases hreq
                · rw [hl] at hv2
                  cases hv2
              · exact ⟨nc, hnc2, hcase⟩

/-- C10: validate_parameters returns a dict whose keys all come from the
block's declared schema (undeclared keys of the input are silently dropped),
fills in declared defaults for absent optional parameters, and raises
ValueError exactly when the block is missing from the registry, a required
declared parameter is absent, or a supplied value fails conversion to its
declared type. -/
theorem validate_parameters_spec (pyInt : String → Option Int)
    (pyFloatOk : String → Bool)
    (registry : String → String → Option (List (String × ParamConfig)))
    (block_name block_type : String) (parameters : List (String × String)) :
    (registry block_type block_name = none →
      validate_parameters pyInt pyFloatOk registry block_name block_type parameters =
        .error (block_type ++ " block " ++ block_name ++ " not found")) ∧
    (∀ schema, registry block_type block_name = some schema →
      (∀ vs, validate_parameters pyInt pyFloatOk registry block_name block_type
          parameters = .ok vs → ∀ kv ∈ vs, kv.1 ∈ schema.map Prod.fst) ∧
      (∀ vs, validate_parameters pyInt pyFloatOk registry block_name block_type
          parameters = .ok vs → ∀ nc ∈ schema, lookupParam parameters nc.1 = none →
          nc.2.required = false → ∀ d, nc.2.default = some d → (nc.1, d) ∈ vs) ∧
      ((∃ e, validate_parameters pyInt pyFloatOk registry block_name block_type
          parameters = .error e) ↔
        ∃ nc ∈ schema, (lookupParam parameters nc.1 = none ∧ nc.2.required = true) ∨
          (∃ v, lookupParam parameters nc.1 = some v ∧
            convert_parameter_value pyInt pyFloatOk v nc.2.ptype = none))) := by
  constructor
  · intro hnone
    simp [validate_parameters, hnone]
  · intro schema hsome
    have hval : validate_parameters pyInt pyFloatOk registry block_name block_type
        parameters = validateLoop pyInt pyFloatOk parameters schema [] := by
      simp [validate_parameters, hsome]
    obtain ⟨p1, p2, p3, p4⟩ := validateLoop_spec pyInt pyFloatOk parameters schema []
    rw [hval]
    refine ⟨?_, p3, p4⟩
    intro vs hvs kv hkv
    rcases p2 vs hvs kv hkv with h | h
    · cases h
    · exact h

/-- Witness for C10 at a concrete input: an undeclared key is dropped, a
declared default is filled in, and the call succeeds. -/
theorem validate_parameters_spec_witness :
    ("b", PValue.pstr "x") ∈ ([("a", PValue.pint 3), ("b", PValue.pstr "x")] :
      List (String × PValue)) ∧
    ("junk" : String) ∉ ([("a", ⟨"integer", true, none⟩),
      ("b", ⟨"string", false, some (PValue.pstr "x")⟩)] :
        List (String × ParamConfig)).map Prod.fst := by
  have h := (validate_parameters_spec (fun _ => some 3) (fun _ => true)
    (fun _ _ => some [("a", ⟨"integer", true, none⟩),
      ("b", ⟨"string", false, some (PValue.pstr "x")⟩)])
    "blk" "processing" [("a", "3"), ("junk", "z")]).2
    [("a", ⟨"integer", true, none⟩), ("b", ⟨"string", false, some (PValue.pstr "x")⟩)] rfl
  refine ⟨?_, by decide⟩
  exact h.2.1 [("a", PValue.pint 3), ("b", PValue.pstr "x")] rfl
    ("b", ⟨"string", false, some (PValue.pstr "x")⟩) (by decide) rfl rfl
    (PValue.pstr "x") rfl

/-! ## TaskExecutor.execute_task (src/executor.py) -/

structure EBlock where
  id : Nat
  btype : String
  name : String
deriving Repr, DecidableEq

structure Conn where
  source_block_id : Nat
  target_block_id : Nat
deriving Repr, DecidableEq

/-- Outcome of an action block on one item: its result, or the error record
with keys error and item built when block_instance.execute raised. -/
inductive ActionOutcome (ι ρ : Type) where
  | ok : ρ → ActionOutcome ι ρ
  | err : String → ι → ActionOutcome ι ρ
deriving DecidableEq

/-- What block.set_data stores: a list of items for input/processing blocks,
a list of per-item outcomes for action blocks. -/
inductive BData (ι ρ : Type) where
  | items : List ι → BData ι ρ
  | actions : List (ActionOutcome ι ρ) → BData ι ρ
deriving DecidableEq

/-- The block implementations behind manager.get_block, abstracted: collect
for input blocks, process for processing blocks, execute for action blocks;
.error models a raised exception. -/
structure Behavior (ι ρ : Type) where
  collect : EBlock → Except String (List ι)
  process : EBlock → List ι → Except String (List ι)
  execute : EBlock → ι → Except String ρ

/-- Mutable state of one execute_task run: the committed block.data writes
(newest first), the block_outputs dict and the executed_blocks set — the
latter kept as the ordered trace of collect/process calls. -/
structure ExecState (ι ρ : Type) where
  data : List (Nat × BData ι ρ)
  outputs : List (Nat × List ι)
  executed : List Nat

section Executor

variable {ι ρ : Type}

def filterType (blocks : List EBlock) (t : String) : List EBlock :=
  blocks.filter (fun b => b.btype == t)

def connsTo (conns : List Conn) (b : EBlock) : List Conn :=
  conns.filter (fun c => c.target_block_id == b.id)

/-- dependencies[block.id]: the source ids of the block's incoming
connections. -/
def depsOf (conns : List Conn) (b : EBlock) : List Nat :=
  (connsTo conns b).map (fun c => c.source_block_id)

def lookupOut (outputs : List (Nat × List ι)) (i : Nat) : Option (List ι) :=
  (outputs.find? (fun p => p.1 == i)).map (fun p => p.2)

def dataOf (st : ExecState ι ρ) (i : Nat) : Option (BData ι ρ) :=
  (st.data.find? (fun p => p.1 == i)).map (fun p => p.2)

/-- Embeds the input-block loop of execute_task: collect, set_data, record
the output, mark executed; an exception propagates immediately. -/
def runInputs (beh : Behavior ι ρ) :
    List EBlock → ExecState ι ρ → ExecState ι ρ × Option String
  | [], st => (st, none)
  | b :: rest, st =>
    match beh.collect b with
    | .ok result =>
      runInputs beh rest
        { data := (b.id, .items result) :: st.data
        , outputs := (b.id, result) :: st.outputs
        , executed := st.executed ++ [b.id] }
    | .error e => (st, some e)

/-- Embeds input_data collection: for conn in block.inputs extend with
block_outputs[conn.source_block_id]; a missing key is Python's KeyError. -/
def gatherInputs (outputs : List (Nat × List ι)) : List Conn → Except String (List ι)
  | [] => .ok []
  | c :: rest =>
    match lookupOut outputs c.source_block_id with
    | none => .error "KeyError"
    | some items =>
      match gatherInputs outputs rest with
      | .ok more => .ok (items ++ more)
      | .error e => .error e

/-- ready_blocks: the remaining processing blocks whose dependency set is a
subset of executed_blocks. -/
def readyBlocks (conns : List Conn) (executed : List Nat) (remaining : List EBlock) :
    List EBlock :=
  remaining.filter (fun b => (depsOf conns b).all (fun d => executed.contains d))

/-- Embeds one ready batch of the processing loop: gather inputs, process,
set_data, record output, mark executed; an exception propagates with the
state written so far. -/
def runBatch (beh : Behavior ι ρ) (conns : List Conn) :
    List EBlock → ExecState ι ρ → ExecState ι ρ × Option String
  | [], st => (st, none)
  | b :: rest, st =>
    match gatherInputs st.outputs (connsTo conns b) with
    | .error e => (st, some e)
    | .ok input_data =>
      match beh.process b input_data with
      | .error e => (st, some e)
      | .ok result =>
        runBatch beh conns rest
          { data := (b.id, .items result) :: st.data
          , outputs := (b.id, result) :: st.outputs
          , executed := st.executed ++ [b.id] }

/-- Embeds the while processing_blocks loop of execute_task: raise the cycle
error when no remaining block is ready, otherwise run the ready batch and
drop it from the remaining list.  fuel starts at the number of processing
blocks; every non-raising iteration removes at least one block, so the
fuel-zero branch is unreachable from execute_task. -/
def runProcessing (beh : Behavior ι ρ) (conns : List Conn) :
    Nat → List EBlock → ExecState ι ρ → ExecState ι ρ × Option String
  | _, [], st => (st, none)
  | 0, _ :: _, st => (st, some "Cycle detected in processing block dependencies")
  | fuel + 1, b :: rest, st =>
    let ready := readyBlocks conns st.executed (b :: rest)
    if ready.isEmpty then
      (st, some "Cycle detected in processing block dependencies")
    else
      match runBatch beh conns ready st with
      | (st1, some e) => (st1, some e)
      | (st1, none) =>
        runProcessing beh conns fuel
          ((b :: rest).filter (fun x => !(ready.contains x))) st1

/-- Embeds the per-item action loop: execute each upstream item, catching an
exception into the error record with the item, in input order. -/
def runActionItems (beh : Behavior ι ρ) (b : EBlock) (items : List ι) :
    List (ActionOutcome ι ρ) :=
  items.map (fun it =>
    match beh.execute b it with
    | .ok r => ActionOutcome.ok r
    | .error e => ActionOutcome.err e it)

/-- Embeds the action-block loop: gather inputs (a KeyError there is outside
the per-item try and propagates), run the per-item loop, set_data the
ordered outcome list.  Action blocks are not added to executed_blocks or
block_outputs. -/
def runActions (beh : Behavior ι ρ) (conns : List Conn) :
    List EBlock → ExecState ι ρ → ExecState ι ρ × Option String
  | [], st => (st, none)
  | b :: rest, st =>
    match gatherInputs st.outputs (connsTo conns b) with
    | .error e => (st, some e)
    | .ok input_data =>
      runActions beh conns rest
        { st with data := (b.id, .actions (runActionItems beh b input_data)) :: st.data }

structure ExecResult (ι ρ : Type) where
  state : ExecState ι ρ
  err : Option String
  status : String

def initState : ExecState ι ρ := ⟨[], [], []⟩

/-- Embeds TaskExecutor.execute_task: partition blocks by type, run input
blocks, then the processing loop, then action blocks; on success the task
status becomes completed, on a raised error the except branch marks it
failed and commits the partial state before re-raising. -/
def execute_task (beh : Behavior ι ρ) (blocks : List EBlock) (conns : List Conn) :
    ExecResult ι ρ :=
  match runInputs beh (filterType blocks "input") initState with
  | (st1, some e) => ⟨st1, some e, "failed"⟩
  | (st1, none) =>
    match runProcessing beh conns (filterType blocks "processing").length
        (filterType blocks "processing") st1 with
    | (st2, some e) => ⟨st2, some e, "failed"⟩
    | (st2, none) =>
      match runActions beh conns (filterType blocks "action") st2 with
      | (st3, some e) => ⟨st3, some e, "failed"⟩
      | (st3, none) => ⟨st3, none, "completed"⟩

/-- C2: if the processing loop reaches an iteration in which blocks remain
but none has all its dependencies in the executed set, it raises exactly the
cycle-detected error and returns the state of that iteration unchanged: no
remaining (in-cycle or downstream) block executes, no executed block's
collect/process code runs a second time, and every data write already made
is preserved.  Second conjunct: a processing-loop error propagates out of
execute_task, which reports the run failed while keeping the partial
state. -/
theorem cycle_detected_aborts (beh : Behavior ι ρ) (conns : List Conn) :
    (∀ (fuel : Nat) (remaining : List EBlock) (st : ExecState ι ρ),
      remaining ≠ [] → readyBlocks conns st.executed remaining = [] →
      runProcessing beh conns fuel remaining st =
        (st, some "Cycle detected in processing block dependencies")) ∧
    (∀ (blocks : List EBlock) (st1 st2 : ExecState ι ρ) (e : String),
      runInputs beh (filterType blocks "input") initState = (st1, none) →
      runProcessing beh conns (filterType blocks "processing").length
        (filterType blocks "processing") st1 = (st2, some e) →
      execute_task beh blocks conns = ⟨st2, some e, "failed"⟩) := by
  constructor
  · intro fuel remaining st hne hready
    cases remaining with
    | nil => exact absurd rfl hne
    | cons b rest =>
      cases fuel with
      | zero => rfl
      | succ n =>
        simp only [runProcessing]
        rw [hready]
        simp
  · intro blocks st1 st2 e h1 h2
    simp only [execute_task, h1, h2]

/-- Witness for C2 at a concrete input: two processing blocks forming the
cycle 1 -> 2 -> 1. -/
theorem cycle_detected_aborts_witness :
    runProcessing (⟨fun _ => .ok [], fun _ _ => .ok [], fun _ _ => .ok 0⟩ :
        Behavior Nat Nat) [⟨1, 2⟩, ⟨2, 1⟩] 2
      [⟨1, "processing", "p1"⟩, ⟨2, "processing", "p2"⟩] ⟨[], [], []⟩ =
      (⟨[], [], []⟩, some "Cycle detected in processing block dependencies") :=
  (cycle_detected_aborts (⟨fun _ => .ok [], fun _ _ => .ok [], fun _ _ => .ok 0⟩ :
      Behavior Nat Nat) [⟨1, 2⟩, ⟨2, 1⟩]).1 2
    [⟨1, "processing", "p1"⟩, ⟨2, "processing", "p2"⟩] ⟨[], [], []⟩
    (by decide) rfl

theorem dataOf_write (st : ExecState ι ρ) (i : Nat) (v : BData ι ρ) (j : Nat) :
    dataOf { st with data := (i, v) :: st.data } j =
      if i == j then some v else dataOf st j := by
  simp only [dataOf, List.find?_cons]
  cases h : i == j <;> simp [h]

theorem runActions_spec (beh : Behavior ι ρ) (conns : List Conn) (l : List EBlock)
    (st : ExecState ι ρ)
    (hg : ∀ b ∈ l, ∃ items, gatherInputs st.outputs (connsTo conns b) = .ok items)
    (hnd : (l.map (fun b => b.id)).Nodup) :
    ∃ st3, runActions beh conns l st = (st3, none) ∧
      st3.outputs = st.outputs ∧
      (∀ i, i ∉ l.map (fun b => b.id) → dataOf st3 i = dataOf st i) ∧
      (∀ b ∈ l, ∀ items, gatherInputs st.outputs (connsTo conns b) = .ok items →
        dataOf st3 b.id = some (.actions (runActionItems beh b items))) := by
  induction l generalizing st with
  | nil =>
    exact ⟨st, rfl, rfl, fun i _ => rfl, fun b hb => absurd hb (List.not_mem_nil b)⟩
  | cons b rest ih =>
    obtain ⟨items0, hb0⟩ := hg b (List.mem_cons_self _ _)
    rw [List.map_cons, List.nodup_cons] at hnd
    obtain ⟨hbid, hndr⟩ := hnd
    have hstep : runActions beh conns (b :: rest) st =
        runActions beh conns rest
          { st with data := (b.id, .actions (runActionItems beh b items0)) :: st.data } := by
      simp only [runActions, hb0]
    obtain ⟨st3, hrun, ho, hframe, hdata⟩ := ih
      { st with data := (b.id, .actions (runActionItems beh b items0)) :: st.data }
      (fun b2 hb2 => hg b2 (List.mem_cons_of_mem _ hb2)) hndr
    refine ⟨st3, by rw [hstep]; exact hrun, ho, ?_, ?_⟩
    · intro i hi
      have hi1 : i ∉ rest.map (fun b => b.id) := fun h => hi (List.mem_cons_of_mem _ h)
      have hine : (b.id == i) = false :=
        beq_eq_false_iff_ne.mpr (fun h => hi (h ▸ List.mem_cons_self _ _))
      rw [hframe i hi1, dataOf_write, hine]
      simp
    · intro b2 hb2 items hitems
      rcases List.mem_cons.mp hb2 with rfl | hb3
      · have heq : items0 = items := Except.ok.inj (hb0.symm.trans hitems)
        subst heq
        rw [hframe b2.id hbid, dataOf_write]
        simp
      · exact hdata b2 hb3 items hitems

/-- C5: when the input and processing stages succeed and every action
block's upstream outputs are present, the run completes (it is not marked
failed) regardless of any per-item failures of the action blocks; each
action block's stored data is the ordered list of per-item outcomes in
input order, a failing item contributing the error record with its message
and the item, a succeeding item its result. -/
theorem action_item_errors_captured (beh : Behavior ι ρ) (blocks : List EBlock)
    (conns : List Conn) (st1 st2 : ExecState ι ρ)
    (h1 : runInputs beh (filterType blocks "input") initState = (st1, none))
    (h2 : runProcessing beh conns (filterType blocks "processing").length
      (filterType blocks "processing") st1 = (st2, none))
    (hg : ∀ b ∈ filterType blocks "action",
      ∃ items, gatherInputs st2.outputs (connsTo conns b) = .ok items)
    (hnd : ((filterType blocks "action").map (fun b => b.id)).Nodup) :
    (execute_task beh blocks conns).status = "completed" ∧
    (execute_task beh blocks conns).err = none ∧
    (∀ b ∈ filterType blocks "action", ∀ items,
      gatherInputs st2.outputs (connsTo conns b) = .ok items →
      dataOf (execute_task beh blocks conns).state b.id =
        some (.actions (runActionItems beh b items)) ∧
      (∀ j it, items.get? j = some it →
        (∀ e, beh.execute b it = .error e →
          (runActionItems beh b items).get? j = some (ActionOutcome.err e it)) ∧
        (∀ r, beh.execute b it = .ok r →
          (runActionItems beh b items).get? j = some (ActionOutcome.ok r)))) := by
  obtain ⟨st3, hrun, -, -, hdata⟩ :=
    runActions_spec beh conns (filterType blocks "action") st2 hg hnd
  have hexe : execute_task beh blocks conns = ⟨st3, none, "completed"⟩ := by
    simp only [execute_task, h1, h2, hrun]
  refine ⟨by rw [hexe], by rw [hexe], ?_⟩
  intro b hb items hitems
  refine ⟨by rw [hexe]; exact hdata b hb items hitems, ?_⟩
  intro j it hit
  constructor
  · intro e he
    have hm := List.get?_map (fun it =>
      match beh.execute b it with
      | .ok r => ActionOutcome.ok r
      | .error e => ActionOutcome.err e it) items j
    rw [runActionItems, hm, hit]
    simp [he]
  · intro r hr
    have hm := List.get?_map (fun it =>
      match beh.execute b it with
      | .ok r => ActionOutcome.ok r
      | .error e => ActionOutcome.err e it) items j
    rw [runActionItems, hm, hit]
    simp [hr]

/-- Witness for C5 at a concrete input: an input block yields items 1 and 2,
the action block fails on item 2; the run still completes and the stored
outcomes are the success for 1 followed by the error record for 2. -/
theorem action_item_errors_captured_witness :
    (execute_task (⟨fun _ => .ok [1, 2], fun _ _ => .ok [],
        fun _ it => if it == 2 then .error "boom" else .ok it⟩ : Behavior Nat Nat)
      [⟨1, "input", "in"⟩, ⟨2, "action", "act"⟩] [⟨1, 2⟩]).status = "completed" ∧
    dataOf (execute_task (⟨fun _ => .ok [1, 2], fun _ _ => .ok [],
        fun _ it => if it == 2 then .error "boom" else .ok it⟩ : Behavior Nat Nat)
      [⟨1, "input", "in"⟩, ⟨2, "action", "act"⟩] [⟨1, 2⟩]).state 2 =
      some (BData.actions [ActionOutcome.ok 1, ActionOutcome.err "boom" 2]) := by
  have h := action_item_errors_captured (⟨fun _ => .ok [1, 2], fun _ _ => .ok [],
      fun _ it => if it == 2 then .error "boom" else .ok it⟩ : Behavior Nat Nat)
    [⟨1, "input", "in"⟩, ⟨2, "action", "act"⟩] [⟨1, 2⟩]
    ⟨[(1, .items [1, 2])], [(1, [1, 2])], [1]⟩
    ⟨[(1, .items [1, 2])], [(1, [1, 2])], [1]⟩
    rfl rfl
    (by
      intro b hb
      have hft : filterType [⟨1, "input", "in"⟩, ⟨2, "action", "act"⟩] "action" =
          [⟨2, "action", "act"⟩] := rfl
      rw [hft] at hb
      rw [List.mem_singleton.mp hb]
      exact ⟨[1, 2], rfl⟩)
    (by decide)
  refine ⟨h.1, ?_⟩
  exact (h.2.2 ⟨2, "action", "act"⟩ (by decide) [1, 2] rfl).1

end Executor

/-! ## Task.get_block_chain (src/models.py, class Task) -/

/-- The ready test of get_block_chain: all of the block's dependency ids
already appear among the ids of the partial execution chain. -/
def chainReady (conns : List Conn) (chain : List EBlock) (b : EBlock) : Bool :=
  (depsOf conns b).all (fun d => (chain.map (fun x => x.id)).contains d)

/-- Embeds the while processing_blocks loop of get_block_chain: append every
ready block to the chain, and when none is ready (a cycle) break, silently
dropping the blocked blocks from the returned chain.  fuel starts at the
number of processing blocks; every non-breaking pass removes at least one
block, so the fuel-zero branch (which also returns the chain, like the
break) is unreachable from get_block_chain. -/
def chainLoop (conns : List Conn) : Nat → List EBlock → List EBlock → List EBlock
  | _, [], chain => chain
  | 0, _ :: _, chain => chain
  | fuel + 1, b :: rest, chain =>
    if ((b :: rest).filter (chainReady conns chain)).isEmpty then chain
    else
      chainLoop conns fuel
        ((b :: rest).filter (fun x =>
          !(((b :: rest).filter (chainReady conns chain)).contains x)))
        (chain ++ (b :: rest).filter (chainReady conns chain))

/-- Embeds Task.get_block_chain: input blocks first, then the processing
blocks in dependency-satisfied order, then the action blocks. -/
def get_block_chain (blocks : List EBlock) (conns : List Conn) : List EBlock :=
  chainLoop conns (filterType blocks "processing").length
    (filterType blocks "processing") (filterType blocks "input")
    ++ filterType blocks "action"

/-- Transitive closure of incoming connections: Ancestor conns a t holds
when block id a reaches block id t through a nonempty chain of
BlockConnection edges. -/
inductive Ancestor (conns : List Conn) : Nat → Nat → Prop where
  | edge (c : Conn) : c ∈ conns → Ancestor conns c.source_block_id c.target_block_id
  | tail (a : Nat) (c : Conn) : c ∈ conns → Ancestor conns a c.source_block_id →
      Ancestor conns a c.target_block_id

/-- The ordering property claimed for get_block_chain: every block of the
chain appears strictly after an occurrence of every block id reachable from
it via incoming connections. -/
def chainOrdered (conns : List Conn) (chain : List EBlock) : Prop :=
  ∀ (j : Nat) (hj : j < chain.length) (a : Nat),
    Ancestor conns a (chain[j].id) →
    ∃ (i : Nat) (hi : i < chain.length), i < j ∧ chain[i].id = a

def cycBlocks : List EBlock :=
  [⟨1, "processing", "p1"⟩, ⟨2, "processing", "p2"⟩, ⟨3, "action", "act"⟩]

def cycConns : List Conn := [⟨1, 2⟩, ⟨2, 1⟩, ⟨2, 3⟩]

/-- C4 counterexample: on the task whose processing blocks 1 and 2 form the
cycle 1 <-> 2 and feed the action block 3, get_block_chain drops the two
cyclic blocks and returns only block 3, so block 3 appears without its
ancestor 2 before it: the ordering property fails as stated. -/
theorem get_block_chain_not_ordered :
    ¬ chainOrdered cycConns (get_block_chain cycBlocks cycConns) := by
  intro h
  have hch : get_block_chain cycBlocks cycConns = [⟨3, "action", "act"⟩] := by decide
  rw [hch] at h
  obtain ⟨i, hi, hij, -⟩ := h 0 (by decide) 2 (Ancestor.edge ⟨2, 3⟩ (by decide))
  exact absurd hij (Nat.not_lt_zero i)

theorem mem_filterType {blocks : List EBlock} {t : String} {b : EBlock} :
    b ∈ filterType blocks t ↔ b ∈ blocks ∧ b.btype = t := by
  simp [filterType, List.mem_filter]

theorem contains_iff_mem {γ : Type} [DecidableEq γ] (l : List γ) (a : γ) :
    l.contains a = true ↔ a ∈ l := by
  induction l with
  | nil => simp
  | cons x xs ih => simp [List.contains_cons, ih]

theorem mem_depsOf {conns : List Conn} {b : EBlock} {d : Nat} :
    d ∈ depsOf conns b ↔
      ∃ c ∈ conns, c.target_block_id = b.id ∧ c.source_block_id = d := by
  simp only [depsOf, connsTo, List.mem_map, List.mem_filter, beq_iff_eq]
  constructor
  · rintro ⟨c, ⟨hc, ht⟩, hs⟩
    exact ⟨c, hc, ht, hs⟩
  · rintro ⟨c, hc, ht, hs⟩
    exact ⟨c, ⟨hc, ht⟩, hs⟩

theorem chainReady_iff {conns : List Conn} {chain : List EBlock} {b : EBlock} :
    chainReady conns chain b = true ↔
      ∀ d ∈ depsOf conns b, d ∈ chain.map (fun x => x.id) := by
  simp [chainReady, List.all_eq_true, contains_iff_mem]

theorem ancestor_last_edge {conns : List Conn} {a t : Nat} (h : Ancestor conns a t) :
    ∃ c ∈ conns, c.target_block_id = t ∧
      (c.source_block_id = a ∨ Ancestor conns a c.source_block_id) := by
  cases h with
  | edge c hc => exact ⟨c, hc, rfl, Or.inl rfl⟩
  | tail a c hc hanc => exact ⟨c, hc, rfl, Or.inr hanc⟩

theorem length_filter_lt {γ : Type} (p : γ → Bool) (l : List γ) (x : γ)
    (hx : x ∈ l) (hpx : p x = false) : (l.filter p).length < l.length := by
  induction l with
  | nil => cases hx
  | cons a rest ih =>
    rw [List.filter_cons]
    rcases List.mem_cons.mp hx with rfl | hx2
    · rw [if_neg (by simp [hpx])]
      simp only [List.length_cons]
      exact Nat.lt_succ_of_le (List.length_filter_le _ _)
    · cases hpa : p a
      · rw [if_neg (by simp [hpa])]
        simp only [List.length_cons]
        exact Nat.lt_succ_of_lt (ih hx2)
      · rw [if_pos (by simp [hpa])]
        simp only [List.length_cons]
        exact Nat.succ_lt_succ (ih hx2)

theorem exists_fmin (f : Nat → Nat) :
    ∀ (l : List EBlock), l ≠ [] → ∃ b ∈ l, ∀ x ∈ l, f b.id ≤ f x.id
  | [], h => absurd rfl h
  | [a], _ => ⟨a, List.mem_singleton.mpr rfl, fun x hx => by
      rw [List.mem_singleton.mp hx]⟩
  | a :: c :: cs, _ => by
    obtain ⟨b, hb, hmin⟩ := exists_fmin f (c :: cs) (by simp)
    by_cases hab : f a.id ≤ f b.id
    · refine ⟨a, List.mem_cons_self _ _, fun x hx => ?_⟩
      rcases List.mem_cons.mp hx with rfl | hx2
      · exact Nat.le_refl _
      · exact Nat.le_trans hab (hmin x hx2)
    · refine ⟨b, List.mem_cons_of_mem _ hb, fun x hx => ?_⟩
      rcases List.mem_cons.mp hx with rfl | hx2
      · exact Nat.le_of_lt (Nat.lt_of_not_le hab)
      · exact hmin x hx2

theorem chainOrdered_append (conns : List Conn) (chain newBlocks : List EBlock)
    (hord : chainOrdered conns chain)
    (hdeps : ∀ b ∈ newBlocks, ∀ d ∈ depsOf conns b,
      d ∈ chain.map (fun x => x.id)) :
    chainOrdered conns (chain ++ newBlocks) := by
  intro j hj a hanc
  by_cases hjc : j < chain.length
  · have hget : (chain ++ newBlocks)[j] = chain[j] := List.getElem_append_left hjc
    rw [hget] at hanc
    obtain ⟨i, hi, hij, hid⟩ := hord j hjc a hanc
    have hilen : i < (chain ++ newBlocks).length := by
      simp only [List.length_append]
      omega
    refine ⟨i, hilen, hij, ?_⟩
    rw [List.getElem_append_left hi]
    exact hid
  · have hjge : chain.length ≤ j := Nat.le_of_not_lt hjc
    have hsub : j - chain.length < newBlocks.length := by
      simp only [List.length_append] at hj
      omega
    have hget : (chain ++ newBlocks)[j] = newBlocks[j - chain.length] :=
      List.getElem_append_right hjge
    have hbmem : newBlocks[j - chain.length] ∈ newBlocks := List.getElem_mem hsub
    rw [hget] at hanc
    obtain ⟨c, hc, hct, hcase⟩ := ancestor_last_edge hanc
    have hdep : c.source_block_id ∈ depsOf conns (newBlocks[j - chain.length]) :=
      mem_depsOf.mpr ⟨c, hc, hct, rfl⟩
    obtain ⟨x, hx, hxid⟩ := List.mem_map.mp (hdeps _ hbmem _ hdep)
    obtain ⟨i0, hi0, hx0⟩ := List.mem_iff_getElem.mp hx
    rcases hcase with heq | hanc2
    · refine ⟨i0, by simp only [List.length_append]; omega, by omega, ?_⟩
      rw [List.getElem_append_left hi0, hx0, ← heq, hxid]
    · have hanc3 : Ancestor conns a (chain[i0].id) := by
        rw [hx0, hxid]
        exact hanc2
      obtain ⟨i1, hi1, hlt1, hid1⟩ := hord i0 hi0 a hanc3
      refine ⟨i1, by simp only [List.length_append]; omega, by omega, ?_⟩
      rw [List.getElem_append_left hi1]
      exact hid1

theorem chainLoop_spec (conns : List Conn) (f : Nat → Nat)
    (htopo : ∀ c ∈ conns, f c.source_block_id < f c.target_block_id) :
    ∀ (fuel : Nat) (remaining chain : List EBlock),
      remaining.length ≤ fuel →
      chainOrdered conns chain →
      (∀ b ∈ remaining, ∀ d ∈ depsOf conns b,
        d ∈ chain.map (fun x => x.id) ∨ d ∈ remaining.map (fun x => x.id)) →
      chainOrdered conns (chainLoop conns fuel remaining chain) ∧
      (∀ x, x ∈ chainLoop conns fuel remaining chain ↔ x ∈ chain ∨ x ∈ remaining) := by
  intro fuel
  induction fuel with
  | zero =>
    intro remaining chain hfuel hord hdeps
    cases remaining with
    | nil => exact ⟨hord, fun x => by simp [chainLoop]⟩
    | cons b rest => simp at hfuel
  | succ n ih =>
    intro remaining chain hfuel hord hdeps
    cases remaining with
    | nil => exact ⟨hord, fun x => by simp [chainLoop]⟩
    | cons b rest =>
      obtain ⟨bm, hbm, hmin⟩ := exists_fmin f (b :: rest) (by simp)
      have hready : chainReady conns chain bm = true := by
        rw [chainReady_iff]
        intro d hd
        rcases hdeps bm hbm d hd with h | h
        · exact h
        · exfalso
          obtain ⟨x, hx, hxid⟩ := List.mem_map.mp h
          obtain ⟨c, hc, hct, hcs⟩ := mem_depsOf.mp hd
          have h1 : f c.source_block_id < f c.target_block_id := htopo c hc
          rw [hct, hcs] at h1
          have h2 : f bm.id ≤ f x.id := hmin x hx
          rw [hxid] at h2
          omega
      have hmem_ready : bm ∈ (b :: rest).filter (chainReady conns chain) :=
        List.mem_filter.mpr ⟨hbm, hready⟩
      have hne : ((b :: rest).filter (chainReady conns chain)).isEmpty = false := by
        cases hl : (b :: rest).filter (chainReady conns chain) with
        | nil =>
          rw [hl] at hmem_ready
          cases hmem_ready
        | cons y ys => rfl
      have hstep : chainLoop conns (n + 1) (b :: rest) chain =
          chainLoop conns n
            ((b :: rest).filter (fun x =>
              !(((b :: rest).filter (chainReady conns chain)).contains x)))
            (chain ++ (b :: rest).filter (chainReady conns chain)) := by
        simp only [chainLoop, hne, Bool.false_eq_true, if_false]
      rw [hstep]
      have hcontains : ((b :: rest).filter (chainReady conns chain)).contains bm = true :=
        (contains_iff_mem _ _).mpr hmem_ready
      have hfuel2 : ((b :: rest).filter (fun x =>
          !(((b :: rest).filter (chainReady conns chain)).contains x))).length ≤ n := by
        have hlt := length_filter_lt (fun x =>
          !(((b :: rest).filter (chainReady conns chain)).contains x)) (b :: rest) bm hbm
          (by
            show (!((b :: rest).filter (chainReady conns chain)).contains bm) = false
            rw [hcontains]
            rfl)
        simp only [List.length_cons] at hlt hfuel
        omega
      have hord2 : chainOrdered conns
          (chain ++ (b :: rest).filter (chainReady conns chain)) :=
        chainOrdered_append conns chain _ hord (fun b2 hb2 d hd =>
          (chainReady_iff.mp (List.mem_filter.mp hb2).2) d hd)
      have hdeps2 : ∀ b2 ∈ (b :: rest).filter (fun x =>
            !(((b :: rest).filter (chainReady conns chain)).contains x)),
          ∀ d ∈ depsOf conns b2,
          d ∈ (chain ++ (b :: rest).filter (chainReady conns chain)).map
            (fun x => x.id) ∨
          d ∈ ((b :: rest).filter (fun x =>
            !(((b :: rest).filter (chainReady conns chain)).contains x))).map
              (fun x => x.id) := by
        intro b2 hb2 d hd
        rcases hdeps b2 (List.mem_filter.mp hb2).1 d hd with h | h
        · left
          rw [List.map_append]
          exact List.mem_append_left _ h
        · obtain ⟨x, hx, hxid⟩ := List.mem_map.mp h
          by_cases hxr : x ∈ (b :: rest).filter (chainReady conns chain)
          · left
            rw [List.map_append]
            exact List.mem_append_right _ (List.mem_map.mpr ⟨x, hxr, hxid⟩)
          · right
            refine List.mem_map.mpr ⟨x, List.mem_filter.mpr ⟨hx, ?_⟩, hxid⟩
            have hcx : ((b :: rest).filter (chainReady conns chain)).contains x = false := by
              cases hcx2 : ((b :: rest).filter (chainReady conns chain)).contains x
              · rfl
              · exact absurd ((contains_iff_mem _ _).mp hcx2) hxr
            show (!((b :: rest).filter (chainReady conns chain)).contains x) = true
            rw [hcx]
            rfl
      obtain ⟨hord3, hmem3⟩ := ih _ _ hfuel2 hord2 hdeps2
      refine ⟨hord3, ?_⟩
      intro x
      rw [hmem3 x]
      constructor
      · rintro (hx | hx)
        · rcases List.mem_append.mp hx with h | h
          · exact Or.inl h
          · exact Or.inr (List.mem_filter.mp h).1
        · exact Or.inr (List.mem_filter.mp hx).1
      · rintro (hx | hx)
        · exact Or.inl (List.mem_append.mpr (Or.inl hx))
        · by_cases hxr : x ∈ (b :: rest).filter (chainReady conns chain)
          · exact Or.inl (List.mem_append.mpr (Or.inr hxr))
          · refine Or.inr (List.mem_filter.mpr ⟨hx, ?_⟩)
            have hcx : ((b :: rest).filter (chainReady conns chain)).contains x = false := by
              cases hcx2 : ((b :: rest).filter (chainReady conns chain)).contains x
              · rfl
              · exact absurd ((contains_iff_mem _ _).mp hcx2) hxr
            show (!((b :: rest).filter (chainReady conns chain)).contains x) = true
            rw [hcx]
            rfl

/-- C4 amended: the claim holds for well-formed tasks.  Assuming the task's
blocks have pairwise distinct ids (they are primary keys), every connection
joins existing blocks of the task with an input or processing source and a
processing or action target (the constraints validate_connection enforces),
and the connection graph is acyclic (witnessed by a topological numbering
f), every block of the list returned by get_block_chain appears after all
blocks reachable from it via incoming connections.  The counterexample
shows the acyclicity proviso is necessary: on a cyclic graph the loop drops
the blocked blocks, and a downstream action block appears without its
ancestors. -/
theorem get_block_chain_ordered (blocks : List EBlock) (conns : List Conn)
    (f : Nat → Nat)
    (hnodup : (blocks.map (fun b => b.id)).Nodup)
    (hsrc : ∀ c ∈ conns, ∃ s ∈ blocks, s.id = c.source_block_id ∧
      (s.btype = "input" ∨ s.btype = "processing"))
    (htgt : ∀ c ∈ conns, ∃ t ∈ blocks, t.id = c.target_block_id ∧
      (t.btype = "processing" ∨ t.btype = "action"))
    (htopo : ∀ c ∈ conns, f c.source_block_id < f c.target_block_id) :
    chainOrdered conns (get_block_chain blocks conns) := by
  have hinj : ∀ x ∈ blocks, ∀ y ∈ blocks, x.id = y.id → x = y :=
    fun x hx y hy => List.inj_on_of_nodup_map hnodup hx hy
  have hord0 : chainOrdered conns (filterType blocks "input") := by
    intro j hj a hanc
    exfalso
    have hbmem := List.getElem_mem hj
    rw [mem_filterType] at hbmem
    obtain ⟨hbb, hbt⟩ := hbmem
    obtain ⟨c, hc, hct, -⟩ := ancestor_last_edge hanc
    obtain ⟨t, htb, hti, htt⟩ := htgt c hc
    have hteq : t = (filterType blocks "input")[j] := hinj t htb _ hbb (by rw [hti, hct])
    rcases htt with h | h
    · rw [hteq, hbt] at h
      exact absurd h (by decide)
    · rw [hteq, hbt] at h
      exact absurd h (by decide)
  have hdeps0 : ∀ b ∈ filterType blocks "processing", ∀ d ∈ depsOf conns b,
      d ∈ (filterType blocks "input").map (fun x => x.id) ∨
      d ∈ (filterType blocks "processing").map (fun x => x.id) := by
    intro b hb d hd
    obtain ⟨c, hc, -, hcs⟩ := mem_depsOf.mp hd
    obtain ⟨s, hsb, hsi, hst⟩ := hsrc c hc
    rcases hst with h | h
    · exact Or.inl (List.mem_map.mpr ⟨s, mem_filterType.mpr ⟨hsb, h⟩, by rw [hsi, hcs]⟩)
    · exact Or.inr (List.mem_map.mpr ⟨s, mem_filterType.mpr ⟨hsb, h⟩, by rw [hsi, hcs]⟩)
  obtain ⟨hordL, hmemL⟩ := chainLoop_spec conns f htopo
    (filterType blocks "processing").length (filterType blocks "processing")
    (filterType blocks "input") (Nat.le_refl _) hord0 hdeps0
  have hdepsA : ∀ b ∈ filterType blocks "action", ∀ d ∈ depsOf conns b,
      d ∈ (chainLoop conns (filterType blocks "processing").length
        (filterType blocks "processing") (filterType blocks "input")).map
          (fun x => x.id) := by
    intro b hb d hd
    obtain ⟨c, hc, -, hcs⟩ := mem_depsOf.mp hd
    obtain ⟨s, hsb, hsi, hst⟩ := hsrc c hc
    refine List.mem_map.mpr ⟨s, ?_, by rw [hsi, hcs]⟩
    rw [hmemL s]
    rcases hst with h | h
    · exact Or.inl (mem_filterType.mpr ⟨hsb, h⟩)
    · exact Or.inr (mem_filterType.mpr ⟨hsb, h⟩)
  exact chainOrdered_append conns _ _ hordL hdepsA

/-- Witness for the amended C4 at a concrete acyclic, type-valid task. -/
theorem get_block_chain_ordered_witness :
    chainOrdered [⟨1, 2⟩, ⟨2, 3⟩] (get_block_chain
      [⟨1, "input", "i"⟩, ⟨2, "processing", "p"⟩, ⟨3, "action", "a"⟩]
      [⟨1, 2⟩, ⟨2, 3⟩]) :=
  get_block_chain_ordered
    [⟨1, "input", "i"⟩, ⟨2, "processing", "p"⟩, ⟨3, "action", "a"⟩]
    [⟨1, 2⟩, ⟨2, 3⟩] (fun i => i) (by decide) (by decide) (by decide) (by decide)

end TaskFlow
